import Mathlib

/-!
Verification of the RRG (Relative Rotation Graph) calculation engine of this
repository, a shallow embedding of `src/rrg_calculator.py` and of the
orchestration check in `app.py`.

Modelling conventions:

* A pandas float value is modelled as `Option ℚ`, with `none` playing the
  role of NaN (a missing value).  Exact rational arithmetic stands in for
  IEEE doubles; every property below concerns exact identities that the
  spec states over the mathematical reals.
* A pandas `Series` of floats is modelled positionally as `List (Option ℚ)`;
  all engine operations (`/`, `-`, `ewm`, `rolling`, `shift`, `replace`)
  preserve the index, so positions are a faithful view.
* `Series.ewm(span=m, adjust=False).mean()` is modelled after the pandas
  aggregation loop (`ignore_na=False`, `min_periods` defaulting to 0, one
  step per row): the running state is the pair (weighted average, old
  weight); a missing input leaves the average unchanged and multiplies the
  old weight by `1 - alpha`; a present input `c` with present average `y`
  updates the average to `(w*(1-alpha)*y + alpha*c) / (w*(1-alpha) + alpha)`
  and resets the weight to 1 (pandas skips the division when `c = y`, which
  in exact arithmetic returns the same value).  The output at each row is
  the current average, which is missing exactly until the first present
  input.
* `Series.rolling(window=m).mean()` (with `min_periods` defaulting to the
  window size) produces a value at position `i` exactly when the trailing
  window of `m` entries exists (`m ≤ i+1`) and contains no missing value,
  and that value is the arithmetic mean of the window.
* `Series.shift(k)` prepends `k` missing values and drops the last `k`
  entries, preserving length.
* `Series.replace(0, nan)` maps the exact value 0 to missing.
* Division of floats by an exact 0 yields a non-finite value (inf or NaN);
  the engine always guards its divisors with `replace(0, nan)`, so a zero
  divisor is modelled as producing a missing value.
* A date-indexed price series handed to `process_series` is modelled as a
  `List (ℕ × ℚ)` of (date, close) pairs in storage order; pandas
  `index.has_duplicates`, `~index.duplicated()` (keep the first occurrence),
  `index.is_monotonic_increasing` (non-strict) and
  `sort_index(ascending=True)` are modelled below.
-/

namespace RRG

/-- A pandas float: `none` is NaN (a missing value). -/
abbrev PVal := Option ℚ

/-- Elementwise subtraction with NaN propagation. -/
def psub : PVal → PVal → PVal
  | some a, some b => some (a - b)
  | _, _ => none

/-- Elementwise division with NaN propagation; a zero divisor yields a
non-finite float in pandas, modelled as a missing value (the engine always
replaces exact zeros in its divisors by NaN beforehand, so this branch is
never reached on the guarded divisions). -/
def pdiv : PVal → PVal → PVal
  | some a, some b => if b = 0 then none else some (a / b)
  | _, _ => none

/-- Scalar multiplication `c * x`, NaN-propagating. -/
def pscale (c : ℚ) (v : PVal) : PVal := v.map (fun x => c * x)

/-- The map `x ↦ 100 + 100 * x`, NaN-propagating (step 3 of the momentum
computation). -/
def paffine100 (v : PVal) : PVal := v.map (fun x => 100 + 100 * x)

/-- `Series.replace(0, np.nan)`: the exact value 0 becomes missing. -/
def replaceZero (xs : List PVal) : List PVal :=
  xs.map (fun v => if v = some 0 then none else v)

/-- `Series.shift(k)`: `k` missing values in front, the last `k` entries
dropped; the length is preserved. -/
def shift (k : ℕ) (xs : List PVal) : List PVal :=
  List.replicate (min k xs.length) none ++ xs.take (xs.length - k)

/-- The smoothing factor of `ewm(span=m)`: `alpha = 2 / (m + 1)`. -/
def alphaOfSpan (m : ℕ) : ℚ := 2 / (m + 1)

/-- Running state of the pandas EWM aggregation: the current weighted
average (`none` before the first present input) and the accumulated old
weight. -/
structure EwmState where
  avg : Option ℚ
  oldWt : ℚ
deriving DecidableEq

/-- One row of the pandas EWM loop (`adjust=False`, `ignore_na=False`):
a missing input leaves the average unchanged and decays the old weight;
a present input updates the average by the normalized weighted mean and
resets the old weight to 1. -/
def ewmStep (a : ℚ) (st : EwmState) (x : PVal) : EwmState :=
  match st.avg, x with
  | none, none => st
  | none, some c => ⟨some c, 1⟩
  | some y, none => ⟨some y, st.oldWt * (1 - a)⟩
  | some y, some c =>
      if y = c then ⟨some y, 1⟩
      else
        let w := st.oldWt * (1 - a)
        ⟨some ((w * y + a * c) / (w + a)), 1⟩

/-- The EWM loop: each output row is the current weighted average. -/
def ewmGo (a : ℚ) (st : EwmState) : List PVal → List PVal
  | [] => []
  | x :: xs =>
      let st2 := ewmStep a st x
      st2.avg :: ewmGo a st2 xs

/-- `Series.ewm(span=m, adjust=False).mean()`. -/
def ewmMean (m : ℕ) (xs : List PVal) : List PVal :=
  ewmGo (alphaOfSpan m) ⟨none, 1⟩ xs

/-- The trailing window of (at most) `m` entries ending at position `i`. -/
def windowAt (m : ℕ) (xs : List PVal) (i : ℕ) : List PVal :=
  (xs.take (i + 1)).drop (i + 1 - m)

/-- `Series.rolling(window=m).mean()` with the default `min_periods = m`:
a value appears at position `i` exactly when the trailing window of `m`
entries exists and has no missing entry, and equals the mean of the
window. -/
def rollingMean (m : ℕ) (xs : List PVal) : List PVal :=
  (List.range xs.length).map (fun i =>
    if (m ≤ i + 1) ∧ ((windowAt m xs i).all Option.isSome) then
      some ((((windowAt m xs i).map (fun v => v.getD 0)).sum) / (m : ℚ))
    else none)

/-- Step 1 of `calculate_rs`: `rs = stock_df / benchmark_df`, elementwise
over the pre-aligned series. -/
def rsOf (stock bench : List PVal) : List PVal :=
  List.zipWith pdiv stock bench

/-- Step 2 of `calculate_rs`: `ema_rs = rs.ewm(span=m, adjust=False).mean()`. -/
def smoothedRS (m : ℕ) (stock bench : List PVal) : List PVal :=
  ewmMean m (rsOf stock bench)

/-- `RRGCalculator.calculate_rs` with `ema_roc_span = m`:
`rs_ratio = 100 * ema_rs / ema_rs.rolling(m).mean().replace(0, nan)`. -/
def calculate_rs (m : ℕ) (stock bench : List PVal) : List PVal :=
  List.zipWith pdiv ((smoothedRS m stock bench).map (pscale 100))
    (replaceZero (rollingMean m (smoothedRS m stock bench)))

/-- Step 1 of `calculate_momentum` with `roc_shift = k`:
`roc = (rs_ratio - rs_ratio.shift(k)) / rs_ratio.shift(k).replace(0, nan)`. -/
def rocOf (k : ℕ) (rs_ratio : List PVal) : List PVal :=
  List.zipWith pdiv (List.zipWith psub rs_ratio (shift k rs_ratio))
    (replaceZero (shift k rs_ratio))

/-- `RRGCalculator.calculate_momentum` with `ema_roc_span = m`,
`roc_shift = k`: `100 + 100 * roc.ewm(span=m, adjust=False).mean()`. -/
def calculate_momentum (m k : ℕ) (rs_ratio : List PVal) : List PVal :=
  (ewmMean m (rocOf k rs_ratio)).map paffine100

/-- `RRGCalculator.get_quadrant`. -/
def get_quadrant (rs_value momentum_value : ℚ) : String :=
  if rs_value > 100 ∧ momentum_value > 100 then "Leading"
  else if rs_value > 100 ∧ momentum_value ≤ 100 then "Weakening"
  else if rs_value ≤ 100 ∧ momentum_value > 100 then "Improving"
  else "Lagging"

/-- `RRGCalculator.get_color`. -/
def get_color (rs_value momentum_value : ℚ) : String :=
  if rs_value > 100 then
    if momentum_value > 100 then "#008217" else "#918000"
  else
    if momentum_value > 100 then "#00749D" else "#E0002B"

/-- The orchestration check in `app.py` (`generate_chart`): an instrument is
skipped when `len(common_dates) < window + roc_period`, where `window` and
`roc_period` are the session settings (defaults 14 and 20) that the
calculator class itself labels deprecated. -/
def skipsInstrument (window rocPeriod numCommon : ℕ) : Bool :=
  decide (numCommon < window + rocPeriod)

/-- A raw date-indexed price series: (date, close) pairs in storage order. -/
abbrev KSeries := List (ℕ × ℚ)

/-- The date index of a series. -/
def seriesKeys (s : KSeries) : List ℕ := s.map Prod.fst

/-- `ser.index.has_duplicates`. -/
def hasDuplicates (s : KSeries) : Bool := decide (¬ (seriesKeys s).Nodup)

/-- `ser.index.is_monotonic_increasing` (pandas: non-strict). -/
def isMonotonicIncreasing (s : KSeries) : Bool :=
  decide ((seriesKeys s).Pairwise (· ≤ ·))

/-- `ser.loc[~ser.index.duplicated()]`: keep each entry whose date has not
occurred earlier; `seen` is the set of dates already encountered. -/
def dedupGo (seen : List ℕ) : KSeries → KSeries
  | [] => []
  | p :: ps =>
      if p.1 ∈ seen then dedupGo seen ps
      else p :: dedupGo (p.1 :: seen) ps

/-- Drop all but the first occurrence of each date. -/
def dropDuplicates (s : KSeries) : KSeries := dedupGo [] s

/-- `ser.sort_index(ascending=True)`: sort by date (dates are unique when
this runs, so the comparison sort's tie behaviour is irrelevant). -/
def sortIndex (s : KSeries) : KSeries :=
  s.mergeSort (fun p q => p.1 ≤ q.1)

/-- The first statement of `process_series`: drop duplicate dates when the
index has any. -/
def seriesStep1 (ser : KSeries) : KSeries :=
  if hasDuplicates ser then dropDuplicates ser else ser

/-- `RRGCalculator.process_series`: deduplicate the index if it has
duplicates, then sort it if it is not monotonically increasing. -/
def process_series (ser : KSeries) : KSeries :=
  if isMonotonicIncreasing (seriesStep1 ser) then seriesStep1 ser
  else sortIndex (seriesStep1 ser)


/-- C1: the quadrant classification is `Leading` iff ratio > 100 and
momentum > 100, `Weakening` iff ratio > 100 and momentum ≤ 100,
`Improving` iff ratio ≤ 100 and momentum > 100, and `Lagging` otherwise
(both ≤ 100); in particular (100, 100) is `Lagging`, (100.0001, 100.0001)
is `Leading`, (100.0001, 99.9999) is `Weakening`, and (99.9999, 100.0001)
is `Improving`. -/
theorem get_quadrant_boundary_spec (r q : ℚ) :
    (get_quadrant r q = "Leading" ↔ (r > 100 ∧ q > 100)) ∧
    (get_quadrant r q = "Weakening" ↔ (r > 100 ∧ q ≤ 100)) ∧
    (get_quadrant r q = "Improving" ↔ (r ≤ 100 ∧ q > 100)) ∧
    (get_quadrant r q = "Lagging" ↔ (r ≤ 100 ∧ q ≤ 100)) ∧
    get_quadrant 100 100 = "Lagging" ∧
    get_quadrant (1000001/10000) (1000001/10000) = "Leading" ∧
    get_quadrant (1000001/10000) (999999/10000) = "Weakening" ∧
    get_quadrant (999999/10000) (1000001/10000) = "Improving" := by
  have hmain : (get_quadrant r q = "Leading" ↔ (r > 100 ∧ q > 100)) ∧
      (get_quadrant r q = "Weakening" ↔ (r > 100 ∧ q ≤ 100)) ∧
      (get_quadrant r q = "Improving" ↔ (r ≤ 100 ∧ q > 100)) ∧
      (get_quadrant r q = "Lagging" ↔ (r ≤ 100 ∧ q ≤ 100)) := by
    by_cases hr : r > 100 <;> by_cases hq : q > 100
    · simp [get_quadrant, hr, hq, not_le.mpr hr, not_le.mpr hq]
    · simp [get_quadrant, hr, hq, not_le.mpr hr, not_lt.mp hq]
    · simp [get_quadrant, hr, hq, not_lt.mp hr, not_le.mpr hq]
    · simp [get_quadrant, hr, hq, not_lt.mp hr, not_lt.mp hq]
  refine ⟨hmain.1, hmain.2.1, hmain.2.2.1, hmain.2.2.2, ?_, ?_, ?_, ?_⟩ <;>
    norm_num [get_quadrant]

/-- C10: the color agrees with the quadrant at every point: green `#008217`
iff `Leading`, yellow `#918000` iff `Weakening`, blue `#00749D` iff
`Improving`, red `#E0002B` iff `Lagging`. -/
theorem get_color_matches_quadrant (r q : ℚ) :
    (get_color r q = "#008217" ↔ get_quadrant r q = "Leading") ∧
    (get_color r q = "#918000" ↔ get_quadrant r q = "Weakening") ∧
    (get_color r q = "#00749D" ↔ get_quadrant r q = "Improving") ∧
    (get_color r q = "#E0002B" ↔ get_quadrant r q = "Lagging") := by
  by_cases hr : r > 100 <;> by_cases hq : q > 100
  · simp [get_quadrant, get_color, hr, hq, not_le.mpr hr, not_le.mpr hq]
  · simp [get_quadrant, get_color, hr, hq, not_le.mpr hr, not_lt.mp hq]
  · simp [get_quadrant, get_color, hr, hq, not_lt.mp hr, not_le.mpr hq]
  · simp [get_quadrant, get_color, hr, hq, not_lt.mp hr, not_lt.mp hq]



/-- C4 (corrected): the orchestration skip check passes an instrument
exactly when the number of aligned dates is at least `window + roc_period`
(the deprecated display parameters, defaults 14 and 20), not when it
exceeds `ema_roc_span + roc_shift`; under the defaults the code demands at
least 34 aligned points, strictly more than the spec's 25. -/
theorem skipsInstrument_spec (w p n : ℕ) :
    (skipsInstrument w p n = false ↔ w + p ≤ n) ∧
    (skipsInstrument 14 20 n = false ↔ 34 ≤ n) := by
  constructor
  · simp [skipsInstrument, Nat.not_lt]
  · simp [skipsInstrument, Nat.not_lt]

/-- C4 counterexample: an instrument with 30 aligned dates has strictly
more than `ema_roc_span + roc_shift = 14 + 10` points, so the claim says it
is handed to the engine, yet the code (defaults `window = 14`,
`roc_period = 20`) skips it. -/
theorem skipsInstrument_claim_false :
    skipsInstrument 14 20 30 = true ∧ 14 + 10 < 30 := by with_unfolding_all decide

/-- The 50-point constant instrument series of the spec's scenario. -/
def stockC2 : List PVal := List.replicate 50 (some 10)

/-- The 50-point constant benchmark series of the spec's scenario. -/
def benchC2 : List PVal := List.replicate 50 (some 5)

/-- C2: with constant prices 10 against 5 over 50 points and `m = 14`,
`k = 10`, the ratio series is exactly 100 at every position from index 26
(= 2m-2) on, and the momentum series is exactly 100 at every position from
index 36 (= 2m-2+k) on. -/
theorem constant_scenario_ratio_momentum :
    (calculate_rs 14 stockC2 benchC2).drop 26 = List.replicate 24 (some 100) ∧
    (calculate_momentum 14 10 (calculate_rs 14 stockC2 benchC2)).drop 36 =
      List.replicate 14 (some 100) := by with_unfolding_all decide

/-- C3 counterexample: at `m = 1`, `k = 1` on the ratio series
`[1, 2, 0, 3]`, the 1-lagged value at position 3 is 0, so `roc[3]` is
missing, yet `momentum[3]` is `100 + 100·(-1) = 0`, not a missing value:
the EWM repeats its previous average across the missing input. -/
theorem momentum_not_missing_at_zero_lag :
    (shift 1 [some 1, some 2, some 0, some 3]).get? 3 = some (some 0) ∧
    (calculate_momentum 1 1 [some 1, some 2, some 0, some 3]).get? 3 =
      some (some 0) := by with_unfolding_all decide

/-- C8 counterexample: the ratio series `[1, 2, 2]` is constant over the
window of positions 1..2 (length 2 ≥ k = 1), but with `m = 3` the momentum
series there is `[200, 150]`, not 100: the rate of change at position 1
reaches back before the window, and the EWM retains that history at
position 2. -/
theorem momentum_constant_window_not_100 :
    [some (1:ℚ), some 2, some 2].drop 1 = List.replicate 2 (some (2:ℚ)) ∧
    (calculate_momentum 3 1 [some 1, some 2, some 2]).get? 1 = some (some 200) ∧
    (calculate_momentum 3 1 [some 1, some 2, some 2]).get? 2 = some (some 150) := by
  with_unfolding_all decide

/-- C9 counterexample: for the 3-point constant inputs with `m = 2`, the
ratio series still has length 3 and its warm-up position 0 is present,
holding a missing value — the warm-up entries are not absent from the
output. -/
theorem warmup_positions_present :
    (calculate_rs 2 [some 1, some 1, some 1] [some 1, some 1, some 1]).length = 3 ∧
    (calculate_rs 2 [some 1, some 1, some 1] [some 1, some 1, some 1]).get? 0 =
      some none := by with_unfolding_all decide



theorem pdiv_none_right (v : PVal) : pdiv v none = none := by cases v <;> rfl

theorem pdiv_none_left (v : PVal) : pdiv none v = none := by cases v <;> rfl

theorem psub_none_right (v : PVal) : psub v none = none := by cases v <;> rfl

theorem ewmStep_avg_none (a : ℚ) (st : EwmState) : (ewmStep a st none).avg = st.avg := by
  rcases st with ⟨avg, w⟩
  cases avg <;> simp [ewmStep]

theorem ewmStep_none_none (a : ℚ) (w : ℚ) : ewmStep a ⟨none, w⟩ none = ⟨none, w⟩ := by
  simp [ewmStep]

theorem ewmGo_length (a : ℚ) (st : EwmState) (l : List PVal) :
    (ewmGo a st l).length = l.length := by
  induction l generalizing st with
  | nil => rfl
  | cons x xs ih => simp [ewmGo, ih]

theorem ewmMean_length (m : ℕ) (l : List PVal) : (ewmMean m l).length = l.length :=
  ewmGo_length _ _ _

theorem rollingMean_length (m : ℕ) (xs : List PVal) :
    (rollingMean m xs).length = xs.length := by
  simp [rollingMean]

theorem replaceZero_length (xs : List PVal) : (replaceZero xs).length = xs.length := by
  simp [replaceZero]

theorem shift_length (k : ℕ) (xs : List PVal) : (shift k xs).length = xs.length := by
  simp [shift]
  omega

theorem zipWith_getElem?_some {α β γ : Type} {f : α → β → γ} {as : List α}
    {bs : List β} {i : ℕ} {a : α} {b : β} (ha : as[i]? = some a)
    (hb : bs[i]? = some b) : (List.zipWith f as bs)[i]? = some (f a b) := by
  induction as generalizing bs i with
  | nil => simp at ha
  | cons x xs ih =>
    cases bs with
    | nil => simp at hb
    | cons y ys =>
      cases i with
      | zero =>
        simp only [List.getElem?_cons_zero, Option.some.injEq] at ha hb
        simp [ha, hb]
      | succ j =>
        simp only [List.getElem?_cons_succ] at ha hb
        simpa using ih ha hb

theorem rollingMean_getElem? (m : ℕ) (xs : List PVal) (i : ℕ) (h : i < xs.length) :
    (rollingMean m xs)[i]? =
      some (if (m ≤ i + 1) ∧ ((windowAt m xs i).all Option.isSome) then
        some ((((windowAt m xs i).map (fun v => v.getD 0)).sum) / (m : ℚ))
      else none) := by
  simp [rollingMean, List.getElem?_range h]

theorem replaceZero_getElem? (xs : List PVal) (i : ℕ) :
    (replaceZero xs)[i]? = xs[i]?.map (fun v => if v = some 0 then none else v) := by
  simp [replaceZero]

theorem ewmGo_none_prefix (a w : ℚ) (l : List PVal) (i : ℕ)
    (h : ∀ j, j ≤ i → l[j]? = some none) :
    (ewmGo a ⟨none, w⟩ l)[i]? = some none := by
  induction l generalizing i with
  | nil =>
    have h0 := h 0 (Nat.zero_le _)
    simp at h0
  | cons x xs ih =>
    have h0 := h 0 (Nat.zero_le _)
    simp only [List.getElem?_cons_zero, Option.some.injEq] at h0
    subst h0
    cases i with
    | zero => simp [ewmGo, ewmStep_none_none]
    | succ j =>
      have step : ewmGo a ⟨none, w⟩ (none :: xs) =
          none :: ewmGo a ⟨none, w⟩ xs := by
        simp [ewmGo, ewmStep_none_none]
      rw [step]
      simpa using ih j (fun j2 hj2 => by
        have := h (j2 + 1) (Nat.succ_le_succ hj2)
        simpa using this)

theorem ewmGo_carry (a : ℚ) (st : EwmState) (l : List PVal) (i : ℕ)
    (h : l[i + 1]? = some none) :
    (ewmGo a st l)[i + 1]? = (ewmGo a st l)[i]? := by
  induction l generalizing st i with
  | nil => simp at h
  | cons x xs ih =>
    cases i with
    | zero =>
      cases xs with
      | nil => simp at h
      | cons y ys =>
        have hy : y = none := by simpa using h
        subst hy
        simp [ewmGo, ewmStep_avg_none]
    | succ j =>
      have h2 : xs[j + 1]? = some none := by simpa using h
      simpa [ewmGo] using ih (ewmStep a st x) j h2

/-- C9 (amended): the warm-up positions of the engine's outputs are present
in the returned series with missing values, not absent: both outputs have
the same length as the input, `calculate_rs` is missing at every position
before index m-1, and `calculate_momentum` is missing at every position
before index k. -/
theorem warmup_entries_missing_not_absent (m k n : ℕ) (stock bench rs : List PVal)
    (hs : stock.length = n) (hb : bench.length = n) (hr : rs.length = n) :
    (calculate_rs m stock bench).length = n ∧
    (calculate_momentum m k rs).length = n ∧
    (∀ i, i + 1 < m → i < n → (calculate_rs m stock bench)[i]? = some none) ∧
    (∀ i, i < k → i < n → (calculate_momentum m k rs)[i]? = some none) := by
  have hrs : (rsOf stock bench).length = n := by
    simp [rsOf, hs, hb]
  have hsm : (smoothedRS m stock bench).length = n := by
    simp [smoothedRS, ewmMean_length, hrs]
  have hlen1 : (calculate_rs m stock bench).length = n := by
    simp [calculate_rs, replaceZero_length, rollingMean_length, hsm]
  have hshift : (shift k rs).length = n := by simp [shift_length, hr]
  have hroc : (rocOf k rs).length = n := by
    simp [rocOf, replaceZero_length, shift_length, hr]
  have hlen2 : (calculate_momentum m k rs).length = n := by
    simp [calculate_momentum, ewmMean_length, hroc]
  refine ⟨hlen1, hlen2, ?_, ?_⟩
  · intro i him hin
    have hBi : (replaceZero (rollingMean m (smoothedRS m stock bench)))[i]? =
        some none := by
      rw [replaceZero_getElem?, rollingMean_getElem? m _ i (hsm ▸ hin)]
      have : ¬ (m ≤ i + 1) := by omega
      simp [this]
    have hAi : ∃ v, ((smoothedRS m stock bench).map (pscale 100))[i]? = some v := by
      have : i < ((smoothedRS m stock bench).map (pscale 100)).length := by
        simpa [hsm] using hin
      exact ⟨_, List.getElem?_eq_getElem this⟩
    obtain ⟨v, hv⟩ := hAi
    rw [calculate_rs, zipWith_getElem?_some hv hBi, pdiv_none_right]
  · intro i hik hin
    have hrocnone : ∀ j, j ≤ i → (rocOf k rs)[j]? = some none := by
      intro j hj
      have hjn : j < n := lt_of_le_of_lt hj hin
      have hjk : j < k := lt_of_le_of_lt hj hik
      have hshiftj : (shift k rs)[j]? = some none := by
        rw [shift, List.getElem?_append]
        simp [hr, hjk, hjn, List.getElem?_replicate, lt_min_iff]
      have hnum : (List.zipWith psub rs (shift k rs))[j]? = some none := by
        have hrj : ∃ v, rs[j]? = some v :=
          ⟨_, List.getElem?_eq_getElem (by omega : j < rs.length)⟩
        obtain ⟨v, hv⟩ := hrj
        rw [zipWith_getElem?_some hv hshiftj, psub_none_right]
      have hden : (replaceZero (shift k rs))[j]? = some none := by
        rw [replaceZero_getElem?, hshiftj]
        rfl
      rw [rocOf, zipWith_getElem?_some hnum hden, pdiv_none_left]
    have : (ewmMean m (rocOf k rs))[i]? = some none :=
      ewmGo_none_prefix _ _ _ _ hrocnone
    rw [calculate_momentum, List.getElem?_map, this]
    rfl

/-- C9 witness: the amended statement at the concrete 3-point constant
input with m = 2, k = 1. -/
theorem warmup_entries_missing_not_absent_witness :
    (calculate_rs 2 [some 1, some 1, some 1] [some 1, some 1, some 1]).length = 3 ∧
    (calculate_momentum 2 1 [some 1, some 1, some 1]).length = 3 ∧
    (calculate_rs 2 [some 1, some 1, some 1] [some 1, some 1, some 1])[0]? = some none ∧
    (calculate_momentum 2 1 [some 1, some 1, some 1])[0]? = some none := by
  obtain ⟨h1, h2, h3, h4⟩ :=
    warmup_entries_missing_not_absent 2 1 3
      [some 1, some 1, some 1] [some 1, some 1, some 1] [some 1, some 1, some 1]
      rfl rfl rfl
  exact ⟨h1, h2, h3 0 (by decide) (by decide), h4 0 (by decide) (by decide)⟩



theorem lt_length_of_getElem?_some {α : Type} {l : List α} {i : ℕ} {a : α}
    (h : l[i]? = some a) : i < l.length :=
  (List.getElem?_eq_some_iff.mp h).1

/-- C3 (amended): a zero divisor produces a missing value in the directly
derived series at that position: if the trailing rolling mean of the
smoothed ratio is 0 at t then `ratio_series[t]` is missing, and if the
k-lagged ratio is 0 at t then `roc[t]` is missing.  The momentum value at
t, however, is not in general missing: the EWM of roc repeats its previous
average across a missing input, so `momentum_series[t]` equals
`momentum_series[t-1]` (and is itself missing at t = 0).  No position is
an exception or an infinity, and the quotient series is computed
elementwise, other positions being unaffected. -/
theorem division_by_zero_yields_missing (m k : ℕ) (stock bench rs : List PVal)
    (t : ℕ) :
    ((rollingMean m (smoothedRS m stock bench))[t]? = some (some 0) →
      (calculate_rs m stock bench)[t]? = some none) ∧
    ((shift k rs)[t]? = some (some 0) →
      (rocOf k rs)[t]? = some none ∧
      (calculate_momentum m k rs)[t]? =
        (if t = 0 then some none else (calculate_momentum m k rs)[t - 1]?)) := by
  constructor
  · intro h
    have ht : t < (rollingMean m (smoothedRS m stock bench)).length :=
      lt_length_of_getElem?_some h
    rw [rollingMean_length] at ht
    have hB : (replaceZero (rollingMean m (smoothedRS m stock bench)))[t]? =
        some none := by
      rw [replaceZero_getElem?, h]
      rfl
    have hA : ∃ v, ((smoothedRS m stock bench).map (pscale 100))[t]? = some v :=
      ⟨_, List.getElem?_eq_getElem (by simpa using ht)⟩
    obtain ⟨v, hv⟩ := hA
    rw [calculate_rs, zipWith_getElem?_some hv hB, pdiv_none_right]
  · intro h
    have ht : t < rs.length := by
      have := lt_length_of_getElem?_some h
      rwa [shift_length] at this
    have hden : (replaceZero (shift k rs))[t]? = some none := by
      rw [replaceZero_getElem?, h]
      rfl
    have hnum : ∃ v, (List.zipWith psub rs (shift k rs))[t]? = some v := by
      refine ⟨_, List.getElem?_eq_getElem ?_⟩
      simp [shift_length]
      omega
    obtain ⟨v, hv⟩ := hnum
    have hroc : (rocOf k rs)[t]? = some none := by
      rw [rocOf, zipWith_getElem?_some hv hden, pdiv_none_right]
    refine ⟨hroc, ?_⟩
    cases t with
    | zero =>
      have hpref : (ewmMean m (rocOf k rs))[0]? = some none :=
        ewmGo_none_prefix _ _ _ _ (fun j hj => by
          interval_cases j
          exact hroc)
      simp only [if_pos rfl]
      rw [calculate_momentum, List.getElem?_map, hpref]
      rfl
    | succ s =>
      have hcarry : (ewmMean m (rocOf k rs))[s + 1]? =
          (ewmMean m (rocOf k rs))[s]? := ewmGo_carry _ _ _ _ hroc
      simp only [Nat.succ_ne_zero, if_neg, Nat.add_sub_cancel]
      rw [calculate_momentum, List.getElem?_map, List.getElem?_map, hcarry]
      simp

/-- C3 witness: the amended statement exercised at concrete inputs — a
rolling mean that is exactly 0 at position 1 (ratio missing there), and a
lagged ratio that is exactly 0 at position 3 (roc missing there, momentum
repeating its previous value). -/
theorem division_by_zero_yields_missing_witness :
    (calculate_rs 2 [some 1, some (-2)] [some 1, some 1])[1]? = some none ∧
    (rocOf 1 [some 1, some 2, some 0, some 3])[3]? = some none ∧
    (calculate_momentum 1 1 [some 1, some 2, some 0, some 3])[3]? =
      (calculate_momentum 1 1 [some 1, some 2, some 0, some 3])[2]? := by
  have h1 := (division_by_zero_yields_missing 2 1 [some 1, some (-2)]
      [some 1, some 1] [] 1).1 (by with_unfolding_all decide)
  have h2 := (division_by_zero_yields_missing 1 1 [] []
      [some 1, some 2, some 0, some 3] 3).2 (by with_unfolding_all decide)
  exact ⟨h1, h2.1, by simpa using h2.2⟩



/-- The spec's recursive description of the EMA after its seed:
each output is `alpha*input + (1-alpha)*previous_output`.  Stated from the
spec's words, to be compared with the pandas loop `ewmGo`. -/
def emaSpecRec (a y : ℚ) : List ℚ → List ℚ
  | [] => []
  | x :: xs => (a * x + (1 - a) * y) :: emaSpecRec a (a * x + (1 - a) * y) xs

theorem ewmStep_some_valid (a y x : ℚ) :
    ewmStep a ⟨some y, 1⟩ (some x) = ⟨some (a * x + (1 - a) * y), 1⟩ := by
  by_cases h : y = x
  · subst h
    simp [ewmStep]
    ring
  · simp only [ewmStep, if_neg h, EwmState.mk.injEq, Option.some.injEq, and_true]
    have hden : 1 * (1 - a) + a = 1 := by ring
    rw [hden, div_one]
    ring

theorem ewmGo_some_emaSpecRec (a y : ℚ) (xs : List ℚ) :
    ewmGo a ⟨some y, 1⟩ (xs.map some) = (emaSpecRec a y xs).map some := by
  induction xs generalizing y with
  | nil => rfl
  | cons x rest ih =>
    simp only [List.map_cons, ewmGo, ewmStep_some_valid, emaSpecRec]
    exact congrArg _ (ih _)

theorem ewmMean_map_some (m : ℕ) (x : ℚ) (xs : List ℚ) :
    ewmMean m ((x :: xs).map some) =
      (x :: emaSpecRec (alphaOfSpan m) x xs).map some := by
  simp only [List.map_cons, ewmMean, ewmGo]
  have h0 : ewmStep (alphaOfSpan m) ⟨none, 1⟩ (some x) = ⟨some x, 1⟩ := rfl
  rw [h0, ewmGo_some_emaSpecRec]

theorem emaSpecRec_step (a : ℚ) (xs : List ℚ) (x : ℚ) (t : ℕ) (xt yt : ℚ)
    (hx : (x :: xs)[t + 1]? = some xt)
    (hy : (x :: emaSpecRec a x xs)[t]? = some yt) :
    (x :: emaSpecRec a x xs)[t + 1]? = some (a * xt + (1 - a) * yt) := by
  induction t generalizing x xs with
  | zero =>
    cases xs with
    | nil => simp at hx
    | cons x1 rest =>
      have hx1 : x1 = xt := by simpa using hx
      have hyx : x = yt := by simpa using hy
      subst hx1
      subst hyx
      simp [emaSpecRec]
  | succ s ih =>
    cases xs with
    | nil => simp at hx
    | cons x1 rest =>
      have hx2 : (x1 :: rest)[s + 1]? = some xt := by simpa using hx
      have hx3 : ((a * x1 + (1 - a) * x) :: rest)[s + 1]? = some xt := by
        simpa using hx2
      have hy2 : ((a * x1 + (1 - a) * x) ::
          emaSpecRec a (a * x1 + (1 - a) * x) rest)[s]? = some yt := by
        simpa [emaSpecRec] using hy
      have := ih rest (a * x1 + (1 - a) * x) hx3 hy2
      simpa [emaSpecRec] using this

/-- C7: for every nonempty input series and every span m ≥ 1, the EMA with
`alpha = 2/(m+1)` and `adjust=False` starts at the first input value, and
each subsequent output equals `alpha*input[t] + (1-alpha)*output[t-1]`. -/
theorem ema_warmup_and_recursion (m : ℕ) (_hm : 1 ≤ m) (x : ℚ) (xs : List ℚ) :
    (ewmMean m ((x :: xs).map some))[0]? = some (some x) ∧
    (∀ t xt yt, (x :: xs)[t + 1]? = some xt →
      (ewmMean m ((x :: xs).map some))[t]? = some (some yt) →
      (ewmMean m ((x :: xs).map some))[t + 1]? =
        some (some (alphaOfSpan m * xt + (1 - alphaOfSpan m) * yt))) := by
  rw [ewmMean_map_some]
  refine ⟨by simp, ?_⟩
  intro t xt yt hx hy
  rw [List.getElem?_map] at hy ⊢
  have hy2 : (x :: emaSpecRec (alphaOfSpan m) x xs)[t]? = some yt := by
    obtain ⟨v, hv, hv2⟩ := Option.map_eq_some'.mp hy
    obtain rfl : v = yt := Option.some.inj hv2
    exact hv
  rw [emaSpecRec_step (alphaOfSpan m) xs x t xt yt hx hy2]
  rfl

/-- C7 witness: the EMA identities at span 2 on the series `[1, 2]`. -/
theorem ema_warmup_and_recursion_witness :
    (ewmMean 2 ([(1:ℚ), 2].map some))[0]? = some (some 1) ∧
    (ewmMean 2 ([(1:ℚ), 2].map some))[1]? =
      some (some (alphaOfSpan 2 * 2 + (1 - alphaOfSpan 2) * 1)) := by
  obtain ⟨h0, hstep⟩ := ema_warmup_and_recursion 2 (by decide) 1 [2]
  exact ⟨h0, hstep 0 2 1 rfl h0⟩



theorem shift_replicate (k n : ℕ) (c : ℚ) :
    shift k (List.replicate n (some c)) =
      List.replicate (min k n) none ++ List.replicate (n - k) (some c) := by
  simp [shift, List.take_replicate, Nat.min_eq_left (Nat.sub_le n k)]

theorem zipWith_replicate_append {α β γ : Type} (f : α → β → γ) (x : α)
    (a b : β) (i j : ℕ) :
    List.zipWith f (List.replicate (i + j) x)
      (List.replicate i a ++ List.replicate j b) =
      List.replicate i (f x a) ++ List.replicate j (f x b) := by
  rw [List.replicate_add, List.zipWith_append _ _ _ _ _ (by simp),
    List.zipWith_replicate, List.zipWith_replicate]
  simp

theorem ewmGo_none_replicate (a w : ℚ) (i : ℕ) (rest : List PVal) :
    ewmGo a ⟨none, w⟩ (List.replicate i none ++ rest) =
      List.replicate i none ++ ewmGo a ⟨none, w⟩ rest := by
  induction i with
  | zero => simp
  | succ j ih => simp [List.replicate_succ, ewmGo, ewmStep_none_none, ih]

theorem ewmGo_const (a y : ℚ) (j : ℕ) :
    ewmGo a ⟨some y, 1⟩ (List.replicate j (some y)) = List.replicate j (some y) := by
  induction j with
  | zero => rfl
  | succ i ih => simp [List.replicate_succ, ewmGo, ewmStep, ih]

theorem ewmGo_start_const (a y : ℚ) (j : ℕ) :
    ewmGo a ⟨none, 1⟩ (List.replicate j (some y)) = List.replicate j (some y) := by
  cases j with
  | zero => rfl
  | succ i =>
    simp only [List.replicate_succ, ewmGo]
    have h0 : ewmStep a ⟨none, 1⟩ (some y) = ⟨some y, 1⟩ := rfl
    rw [h0, ewmGo_const]

theorem rocOf_replicate (k n : ℕ) (c : ℚ) (hc : c ≠ 0) :
    rocOf k (List.replicate n (some c)) =
      List.replicate (min k n) none ++ List.replicate (n - k) (some 0) := by
  have hn : (List.replicate n (some c) : List PVal) =
      List.replicate (min k n + (n - k)) (some c) := by
    congr 1
    omega
  have hrepl : replaceZero (List.replicate (min k n) (none : PVal) ++
      List.replicate (n - k) (some c)) =
      List.replicate (min k n) none ++ List.replicate (n - k) (some c) := by
    simp [replaceZero, List.map_append, List.map_replicate, hc]
  have hnum : List.zipWith psub (List.replicate n (some c))
      (List.replicate (min k n) none ++ List.replicate (n - k) (some c)) =
      List.replicate (min k n) (none : PVal) ++
        List.replicate (n - k) (some (c - c)) := by
    rw [hn, zipWith_replicate_append]
    simp [psub]
  rw [rocOf, shift_replicate, hrepl, hnum]
  rw [List.zipWith_append _ _ _ _ _ (by simp), List.zipWith_replicate,
    List.zipWith_replicate]
  simp [pdiv, hc]

theorem calculate_momentum_const (m k n : ℕ) (c : ℚ) (hc : c ≠ 0) :
    calculate_momentum m k (List.replicate n (some c)) =
      List.replicate (min k n) none ++ List.replicate (n - k) (some 100) := by
  rw [calculate_momentum, rocOf_replicate k n c hc, ewmMean,
    ewmGo_none_replicate, ewmGo_start_const]
  simp [List.map_append, List.map_replicate, paffine100]

/-- C8 (amended): for a ratio series that is constant (with a nonzero
value) over its whole length, the momentum series equals exactly 100 at
every position from k onward; constancy over an interior window of length
at least k is not enough, because the rate of change at the window's early
positions reaches back before the window and the EMA retains the earlier
history. -/
theorem momentum_constant_series_100 (c : ℚ) (n k m t : ℕ)
    (hc : c ≠ 0) (h1 : k ≤ t) (h2 : t < n) :
    (calculate_momentum m k (List.replicate n (some c)))[t]? = some (some 100) := by
  rw [calculate_momentum_const m k n c hc, List.getElem?_append]
  rw [if_neg (by simp; omega)]
  simp only [List.length_replicate, List.getElem?_replicate]
  rw [if_pos (by omega)]

/-- C8 witness: the constant series of value 1 and length 3, with k = 1,
m = 14: momentum is exactly 100 at position 2. -/
theorem momentum_constant_series_100_witness :
    (calculate_momentum 14 1 (List.replicate 3 (some 1)))[2]? = some (some 100) :=
  momentum_constant_series_100 1 3 1 14 2 (by norm_num) (by norm_num) (by norm_num)



theorem dedupGo_keys_not_mem_seen (seen : List ℕ) (l : KSeries) :
    ∀ x ∈ seriesKeys (dedupGo seen l), x ∉ seen := by
  induction l generalizing seen with
  | nil => simp [dedupGo, seriesKeys]
  | cons p ps ih =>
    by_cases h : p.1 ∈ seen
    · simpa [dedupGo, h] using ih seen
    · intro x hx
      simp only [dedupGo, if_neg h, seriesKeys, List.map_cons, List.mem_cons] at hx
      rcases hx with rfl | hx
      · exact h
      · intro hxs
        exact ih (p.1 :: seen) x (by simpa [seriesKeys] using hx)
          (List.mem_cons_of_mem _ hxs)

theorem dedupGo_keys_nodup (seen : List ℕ) (l : KSeries) :
    (seriesKeys (dedupGo seen l)).Nodup := by
  induction l generalizing seen with
  | nil => simp [dedupGo, seriesKeys]
  | cons p ps ih =>
    by_cases h : p.1 ∈ seen
    · simpa [dedupGo, h] using ih seen
    · simp only [dedupGo, if_neg h, seriesKeys, List.map_cons, List.nodup_cons]
      refine ⟨?_, by simpa [seriesKeys] using ih (p.1 :: seen)⟩
      intro hmem
      exact dedupGo_keys_not_mem_seen (p.1 :: seen) ps p.1
        (by simpa [seriesKeys] using hmem) (List.mem_cons_self _ _)

theorem dedupGo_lookup (seen : List ℕ) (l : KSeries) :
    ∀ p ∈ dedupGo seen l, l.lookup p.1 = some p.2 := by
  induction l generalizing seen with
  | nil => simp [dedupGo]
  | cons q ps ih =>
    intro p hp
    obtain ⟨qk, qv⟩ := q
    by_cases h : qk ∈ seen
    · simp only [dedupGo, if_pos h] at hp
      have hne : p.1 ≠ qk := by
        intro he
        exact dedupGo_keys_not_mem_seen seen ps p.1
          (List.mem_map_of_mem Prod.fst hp) (he ▸ h)
      simp only [List.lookup_cons, beq_eq_false_iff_ne.mpr hne]
      exact ih seen p hp
    · simp only [dedupGo, if_neg h] at hp
      rcases List.mem_cons.mp hp with rfl | hp2
      · simp [List.lookup_cons]
      · have hne : p.1 ≠ qk := by
          intro he
          exact dedupGo_keys_not_mem_seen (qk :: seen) ps p.1
            (List.mem_map_of_mem Prod.fst hp2) (he ▸ List.mem_cons_self _ _)
        simp only [List.lookup_cons, beq_eq_false_iff_ne.mpr hne]
        exact ih (qk :: seen) p hp2

theorem dedupGo_keys_mem (seen : List ℕ) (l : KSeries) :
    ∀ p ∈ l, p.1 ∉ seen → ∃ q ∈ dedupGo seen l, q.1 = p.1 := by
  induction l generalizing seen with
  | nil => simp
  | cons r ps ih =>
    intro p hp hseen
    by_cases h : r.1 ∈ seen
    · rcases List.mem_cons.mp hp with rfl | hp2
      · exact (hseen h).elim
      · obtain ⟨q, hq1, hq2⟩ := ih seen p hp2 hseen
        exact ⟨q, by simpa [dedupGo, h] using hq1, hq2⟩
    · rcases List.mem_cons.mp hp with rfl | hp2
      · exact ⟨p, by simp [dedupGo, h], rfl⟩
      · by_cases hpr : p.1 = r.1
        · exact ⟨r, by simp [dedupGo, h], hpr.symm⟩
        · obtain ⟨q, hq1, hq2⟩ := ih (r.1 :: seen) p hp2 (by simp [hpr, hseen])
          exact ⟨q, by simp [dedupGo, h]; exact Or.inr hq1, hq2⟩

theorem dedupGo_mem (seen : List ℕ) (l : KSeries) :
    ∀ p ∈ dedupGo seen l, p ∈ l := by
  induction l generalizing seen with
  | nil => simp [dedupGo]
  | cons q ps ih =>
    intro p hp
    by_cases h : q.1 ∈ seen
    · simp only [dedupGo, if_pos h] at hp
      exact List.mem_cons_of_mem _ (ih seen p hp)
    · simp only [dedupGo, if_neg h] at hp
      rcases List.mem_cons.mp hp with rfl | hp2
      · exact List.mem_cons_self _ _
      · exact List.mem_cons_of_mem _ (ih (q.1 :: seen) p hp2)

theorem lookup_of_keys_nodup (l : KSeries) (h : (seriesKeys l).Nodup) :
    ∀ p ∈ l, l.lookup p.1 = some p.2 := by
  induction l with
  | nil => simp
  | cons q ps ih =>
    intro p hp
    obtain ⟨qk, qv⟩ := q
    simp only [seriesKeys, List.map_cons, List.nodup_cons] at h
    rcases List.mem_cons.mp hp with rfl | hp2
    · simp [List.lookup_cons]
    · have hne : p.1 ≠ qk := by
        intro he
        exact h.1 (he ▸ List.mem_map_of_mem Prod.fst hp2)
      simp only [List.lookup_cons, beq_eq_false_iff_ne.mpr hne]
      exact ih h.2 p hp2

theorem sortIndex_perm (l : KSeries) : (sortIndex l).Perm l :=
  List.mergeSort_perm l _

theorem sortIndex_pairwise_le (l : KSeries) :
    (seriesKeys (sortIndex l)).Pairwise (· ≤ ·) := by
  have hs := @List.sorted_mergeSort (ℕ × ℚ)
    (fun p q => decide (p.1 ≤ q.1))
    (fun a b c hab hbc => by
      simp only [decide_eq_true_iff] at hab hbc ⊢
      omega)
    (fun a b => by simpa using Nat.le_total a.1 b.1) l
  rw [seriesKeys, List.pairwise_map]
  exact hs.imp (by simp)

theorem pairwise_keys_lt_of_le_nodup {s : KSeries}
    (hle : (seriesKeys s).Pairwise (· ≤ ·)) (hnd : (seriesKeys s).Nodup) :
    (seriesKeys s).Pairwise (· < ·) :=
  (hle.and hnd).imp fun h => lt_of_le_of_ne h.1 h.2

theorem seriesStep1_keys_nodup (l : KSeries) :
    (seriesKeys (seriesStep1 l)).Nodup := by
  by_cases h : hasDuplicates l = true
  · simp only [seriesStep1, h, if_true]
    exact dedupGo_keys_nodup [] l
  · have h2 : (seriesKeys l).Nodup := by
      simpa [hasDuplicates] using h
    simp only [Bool.not_eq_true] at h
    simpa [seriesStep1, h] using h2

theorem seriesStep1_mem (l : KSeries) : ∀ p ∈ seriesStep1 l, p ∈ l := by
  intro p hp
  by_cases h : hasDuplicates l = true
  · simp only [seriesStep1, h, if_true] at hp
    exact dedupGo_mem [] l p hp
  · simp only [Bool.not_eq_true] at h
    simpa [seriesStep1, h] using hp

theorem seriesStep1_lookup (l : KSeries) :
    ∀ p ∈ seriesStep1 l, l.lookup p.1 = some p.2 := by
  intro p hp
  by_cases h : hasDuplicates l = true
  · simp only [seriesStep1, h, if_true] at hp
    exact dedupGo_lookup [] l p hp
  · have h2 : (seriesKeys l).Nodup := by
      simpa [hasDuplicates] using h
    simp only [Bool.not_eq_true] at h
    simp only [seriesStep1, h, Bool.false_eq_true, if_false] at hp
    exact lookup_of_keys_nodup l h2 p hp

theorem seriesStep1_keys_mem (l : KSeries) :
    ∀ p ∈ l, ∃ q ∈ seriesStep1 l, q.1 = p.1 := by
  intro p hp
  by_cases h : hasDuplicates l = true
  · simp only [seriesStep1, h, if_true]
    exact dedupGo_keys_mem [] l p hp (by simp)
  · simp only [Bool.not_eq_true] at h
    exact ⟨p, by simpa [seriesStep1, h] using hp, rfl⟩

theorem process_series_mem (l : KSeries) :
    ∀ p ∈ process_series l, p ∈ seriesStep1 l := by
  intro p hp
  rw [process_series] at hp
  by_cases h : isMonotonicIncreasing (seriesStep1 l) = true
  · simpa [h] using hp
  · simp only [Bool.not_eq_true] at h
    simp only [h, Bool.false_eq_true, if_false] at hp
    exact ((sortIndex_perm (seriesStep1 l)).mem_iff).mp hp

theorem process_series_keys_sorted (l : KSeries) :
    (seriesKeys (process_series l)).Pairwise (· < ·) := by
  rw [process_series]
  have hnd := seriesStep1_keys_nodup l
  by_cases h : isMonotonicIncreasing (seriesStep1 l) = true
  · simp only [h, if_true]
    refine pairwise_keys_lt_of_le_nodup ?_ hnd
    simpa [isMonotonicIncreasing, decide_eq_true_iff] using h
  · simp only [Bool.not_eq_true] at h
    simp only [h, Bool.false_eq_true, if_false]
    refine pairwise_keys_lt_of_le_nodup (sortIndex_pairwise_le _) ?_
    have hperm : (seriesKeys (sortIndex (seriesStep1 l))).Perm
        (seriesKeys (seriesStep1 l)) := (sortIndex_perm _).map _
    exact hperm.nodup_iff.mpr hnd

/-- C5: the normalizer returns a series whose date index is strictly
increasing (hence duplicate-free); every surviving entry carries the value
of the first occurrence of its date in the input ordering; every input
date survives; and the empty series maps to the empty series without any
error. -/
theorem process_series_contract (l : KSeries) :
    (seriesKeys (process_series l)).Pairwise (· < ·) ∧
    (∀ p ∈ process_series l, l.lookup p.1 = some p.2) ∧
    (∀ p ∈ l, ∃ q ∈ process_series l, q.1 = p.1) ∧
    process_series ([] : KSeries) = [] := by
  refine ⟨process_series_keys_sorted l, ?_, ?_, rfl⟩
  · intro p hp
    exact seriesStep1_lookup l p (process_series_mem l p hp)
  · intro p hp
    obtain ⟨q, hq1, hq2⟩ := seriesStep1_keys_mem l p hp
    rw [process_series]
    by_cases h : isMonotonicIncreasing (seriesStep1 l) = true
    · exact ⟨q, by simpa [h] using hq1, hq2⟩
    · simp only [Bool.not_eq_true] at h
      refine ⟨q, ?_, hq2⟩
      simp only [h, Bool.false_eq_true, if_false]
      exact ((sortIndex_perm (seriesStep1 l)).mem_iff).mpr hq1

/-- C5 witness: the contract exercised on the concrete raw series
[(3,1), (1,5), (3,7), (2,4)]: the result is sorted strictly, keeps the
first occurrence (3,1) of date 3, and retains all three dates. -/
theorem process_series_contract_witness :
    (seriesKeys (process_series [(3, (1:ℚ)), (1, 5), (3, 7), (2, 4)])).Pairwise
      (· < ·) ∧
    List.lookup 3 [(3, (1:ℚ)), (1, 5), (3, 7), (2, 4)] = some 1 ∧
    (∃ q ∈ process_series [(3, (1:ℚ)), (1, 5), (3, 7), (2, 4)], q.1 = 3) ∧
    process_series ([] : KSeries) = [] := by
  obtain ⟨h1, h2, h3, h4⟩ :=
    process_series_contract [(3, (1:ℚ)), (1, 5), (3, 7), (2, 4)]
  refine ⟨h1, ?_, h3 (3, 1) (by simp), h4⟩
  have hm : (3, (1:ℚ)) ∈ process_series [(3, (1:ℚ)), (1, 5), (3, 7), (2, 4)] := by
    with_unfolding_all decide
  exact h2 (3, 1) hm

/-- C6: the normalizer is idempotent — an already strictly sorted,
duplicate-free series is returned unchanged, and normalizing twice equals
normalizing once for every input. -/
theorem process_series_idempotent (l : KSeries) :
    ((seriesKeys l).Pairwise (· < ·) → process_series l = l) ∧
    process_series (process_series l) = process_series l := by
  have hid : ∀ s : KSeries, (seriesKeys s).Pairwise (· < ·) → process_series s = s := by
    intro s hs
    have h1 : hasDuplicates s = false := by
      simp only [hasDuplicates, decide_eq_false_iff_not, not_not]
      exact hs.imp fun h => ne_of_lt h
    have h2 : seriesStep1 s = s := by
      simp [seriesStep1, h1]
    have h3 : isMonotonicIncreasing s = true := by
      simp only [isMonotonicIncreasing, decide_eq_true_iff]
      exact hs.imp fun h => le_of_lt h
    rw [process_series, h2, h3]
    simp
  exact ⟨hid l, hid _ (process_series_keys_sorted l)⟩

/-- C6 witness: idempotence at the concrete series [(3,1), (1,5), (3,7),
(2,4)] and identity on the already normalized [(1,5), (2,4)]. -/
theorem process_series_idempotent_witness :
    process_series [(1, (5:ℚ)), (2, 4)] = [(1, (5:ℚ)), (2, 4)] ∧
    process_series (process_series [(3, (1:ℚ)), (1, 5), (3, 7), (2, 4)]) =
      process_series [(3, (1:ℚ)), (1, 5), (3, 7), (2, 4)] := by
  refine ⟨(process_series_idempotent [(1, (5:ℚ)), (2, 4)]).1 ?_,
    (process_series_idempotent [(3, (1:ℚ)), (1, 5), (3, 7), (2, 4)]).2⟩
  simp [seriesKeys]


end RRG
